import Mathlib

/-!
Shallow embedding of the Meshwork core (mesh / skeleton / annotation
linkage) described by the specification of the MeshworkTutorial
repository.  The repository itself is a tutorial notebook: every operation
it exercises (apply_mask, reset_mask, add_annotations, filter_query,
skeletonize_mesh, save_meshwork, load_meshwork, ...) lives in an external
library whose code is not part of the repository, so the definitions below
are modelled from the specification text (sections 3 and 4 of the spec).
-/

namespace Meshwork

/-- A vertex position.  Positions are 3-vectors; the embedding uses exact
integer coordinates in place of floating point. -/
abbrev Pos := Int × Int × Int

/-- Squared Euclidean distance between two positions.  Comparing squared
distances orders points exactly as Euclidean distances do, so
nearest-vertex queries and radius tests over it are faithful to the spec. -/
def sqDist (p q : Pos) : Int :=
  (p.1 - q.1) ^ 2 + (p.2.1 - q.2.1) ^ 2 + (p.2.2 - q.2.2) ^ 2

/-- Modelled from the spec: the error kinds of the core (spec section 7). -/
inductive MeshErr where
  | EmptyGraphError
  | ForestNotTreeError
  | MissingColumnError
  deriving DecidableEq

/-- Modelled from the spec: a MeshGraph is an ordered sequence of vertex
positions, a set of undirected edges given as pairs of vertex indices, and
a per-vertex array mapping current indices back to the original full-mesh
indexing (spec section 3). -/
structure MeshGraph where
  vertices : List Pos
  edges : List (Nat × Nat)
  unmaskedIdx : List Nat
  deriving DecidableEq

/-- Edges reference only valid vertex indices (spec section 3 invariant). -/
def MeshGraph.EdgesValid (g : MeshGraph) : Prop :=
  ∀ e ∈ g.edges, e.1 < g.vertices.length ∧ e.2 < g.vertices.length

/-- The vertex indices kept by a boolean mask over a domain of size n. -/
def maskKeep (mask : List Bool) (n : Nat) : List Nat :=
  (List.range n).filter (fun i => mask.getD i false)

/-- The new index of a kept vertex after masking: the number of kept
vertices strictly before it. -/
def maskRank (mask : List Bool) (i : Nat) : Nat :=
  (mask.take i).count true

/-- Modelled from the spec: applyMask restricts a MeshGraph to the masked
vertices and to edges with both endpoints in the mask, recording the index
translation back to the original indexing (spec section 4.1).  Masking to
an empty set yields an empty graph, not an error. -/
def MeshGraph.applyMask (g : MeshGraph) (mask : List Bool) : MeshGraph where
  vertices := (maskKeep mask g.vertices.length).map (fun i => g.vertices.getD i (0, 0, 0))
  edges := g.edges.filterMap (fun e =>
    if mask.getD e.1 false && mask.getD e.2 false then
      some (maskRank mask e.1, maskRank mask e.2)
    else none)
  unmaskedIdx := (maskKeep mask g.vertices.length).map (fun i => g.unmaskedIdx.getD i 0)

/-- The all-true mask over the vertex domain of a graph. -/
def fullMaskOf (g : MeshGraph) : List Bool :=
  List.replicate g.vertices.length true

/-- The all-false mask over the vertex domain of a graph. -/
def emptyMaskOf (g : MeshGraph) : List Bool :=
  List.replicate g.vertices.length false

/-- Modelled from the spec: nearestVertex returns the index of the vertex
minimizing Euclidean distance to the query point, lowest index winning
ties, and fails with EmptyGraphError on an empty graph (spec section 4.1,
section 4.1 failure clause). -/
def MeshGraph.nearestVertex (g : MeshGraph) (p : Pos) : Except MeshErr Nat :=
  match g.vertices with
  | [] => .error .EmptyGraphError
  | _ :: _ =>
      .ok ((List.range g.vertices.length).foldl
        (fun best i =>
          if sqDist (g.vertices.getD i (0, 0, 0)) p < sqDist (g.vertices.getD best (0, 0, 0)) p
          then i else best) 0)

/-- A row of an annotation table: a point plus an opaque payload standing
in for the remaining columns (spec section 3: row-oriented table of
arbitrary columns with a designated point column). -/
structure AnnoRow where
  point : Pos
  payload : Int
  deriving DecidableEq

/-- Modelled from the spec: an AnnotationTable has a name, rows, an
anchored flag, and for anchored tables a derived mesh-index column, one
entry per row, where none marks an unmapped row (spec sections 3, 4.4). -/
structure AnnotationTable where
  name : String
  rows : List AnnoRow
  anchored : Bool
  meshIndex : List (Option Nat)
  deriving DecidableEq

/-- Whether a derived mesh index survives a mask: an unmapped row never
does. -/
def inMask (mask : List Bool) (mi : Option Nat) : Bool :=
  match mi with
  | some i => mask.getD i false
  | none => false

/-- The rows of a table paired with their derived mesh indices. -/
def AnnotationTable.rowsWithIndex (t : AnnotationTable) : List (AnnoRow × Option Nat) :=
  t.rows.zip t.meshIndex

/-- Modelled from the spec: filter_query returns a new table view holding,
for an anchored table, exactly the rows whose mesh index is in the mask
and, for an unanchored table, all rows unconditionally; the original table
is not mutated (spec section 4.4). -/
def AnnotationTable.filter_query (t : AnnotationTable) (mask : List Bool) : AnnotationTable :=
  if t.anchored then
    let kept := t.rowsWithIndex.filter (fun rm => inMask mask rm.2)
    { t with rows := kept.map (fun rm => rm.1), meshIndex := kept.map (fun rm => rm.2) }
  else t

/-- Modelled from the spec: a SkeletonGraph is an ordered sequence of
skeleton vertices, each carrying its originating mesh vertex and a directed
parent pointer (none at the root), a cable length per vertex for the edge
to its parent (0 at the root), and the claiming assignment mapping each
mesh index to the skeleton index of the region it belongs to (spec
sections 3, 4.2, 4.3). -/
structure SkeletonGraph where
  verts : List (Nat × Option Nat)
  weights : List ℚ
  claim : List (Option Nat)
  deriving DecidableEq

/-- The mesh neighbors of a vertex along the undirected edges. -/
def MeshGraph.neighbors (g : MeshGraph) (v : Nat) : List Nat :=
  g.edges.filterMap (fun e =>
    if e.1 = v then some e.2 else if e.2 = v then some e.1 else none)

/-- The state of the skeleton-tracing loop: skeleton vertices built so far,
their edge weights, and the claiming assignment. -/
structure SkelState where
  verts : List (Nat × Option Nat)
  weights : List ℚ
  claim : List (Option Nat)
  deriving DecidableEq

/-- Modelled from the spec (section 4.2, step 3, design level): the tracing
loop claims unclaimed mesh vertices reachable from already-claimed
territory; each newly claimed vertex becomes a skeleton vertex whose parent
is the skeleton vertex it was reached from, with the traversed mesh edge
length as weight.  Queue order gives deterministic tie-breaking.  Fuel
bounds the loop; the caller passes enough fuel for every queue entry ever
produced. -/
def skelLoop (g : MeshGraph) (elen : Pos → Pos → ℚ) :
    Nat → SkelState → List (Nat × Nat) → SkelState
  | 0, st, _ => st
  | _ + 1, st, [] => st
  | fuel + 1, st, (v, p) :: rest =>
    if (st.claim.getD v none).isSome then
      skelLoop g elen fuel st rest
    else
      let idx := st.verts.length
      let w := elen (g.vertices.getD v (0, 0, 0))
                    (g.vertices.getD (st.verts.getD p (0, none)).1 (0, 0, 0))
      let st2 : SkelState :=
        { verts := st.verts ++ [(v, some p)],
          weights := st.weights ++ [w],
          claim := st.claim.set v (some idx) }
      skelLoop g elen fuel st2 (rest ++ (g.neighbors v).map (fun n => (n, idx)))

/-- The soma-merge set: all mesh vertices within the soma-merge radius of
the root point, together with the root vertex itself (the threshold is
taken in squared units). -/
def somaSetOf (g : MeshGraph) (soma_pt : Pos) (soma_thresh : Int) (r : Nat) : List Nat :=
  (List.range g.vertices.length).filter
    (fun v => v == r || decide (sqDist (g.vertices.getD v (0, 0, 0)) soma_pt ≤ soma_thresh))

/-- The initial tracing state: the root skeleton vertex claims the whole
soma-merge set (collapsing local topology near the soma), and the queue
holds the mesh neighbors of every merged vertex, each to be attached to
the root (spec section 4.2, step 2). -/
def skelInit (g : MeshGraph) (soma_pt : Pos) (soma_thresh : Int) (r : Nat) :
    SkelState × List (Nat × Nat) :=
  let soma := somaSetOf g soma_pt soma_thresh r
  let claim0 := (List.range g.vertices.length).map
    (fun v => if v ∈ soma then some 0 else none)
  ( { verts := [(r, none)], weights := [0], claim := claim0 },
    soma.flatMap (fun v => (g.neighbors v).map (fun n => (n, 0))) )

/-- Modelled from the spec (section 4.2, design level): skeletonize builds
a rooted skeleton from a MeshGraph, a designated root point and a
soma-merge radius.  The mesh vertex nearest the root point becomes the
root skeleton vertex; mesh vertices within the soma-merge radius are
merged into it; the tracing loop then claims the remaining vertices along
mesh paths leading back to claimed territory.  If some mesh vertex is
never claimed (the mesh is disconnected), the call fails with
ForestNotTreeError.  The edge-length function elen is a parameter because
the embedding uses exact arithmetic where the spec has Euclidean length. -/
def MeshGraph.skeletonize (g : MeshGraph) (elen : Pos → Pos → ℚ)
    (soma_pt : Pos) (soma_thresh : Int) : Except MeshErr SkeletonGraph :=
  match g.nearestVertex soma_pt with
  | .error e => .error e
  | .ok r =>
    let init := skelInit g soma_pt soma_thresh r
    let fuel := init.2.length + 2 * g.edges.length + 1
    let st := skelLoop g elen fuel init.1 init.2
    if st.claim.all (fun c => c.isSome) then
      .ok { verts := st.verts, weights := st.weights, claim := st.claim }
    else
      .error .ForestNotTreeError

/-- The number of skeleton vertices. -/
def SkeletonGraph.nverts (s : SkeletonGraph) : Nat := s.verts.length

/-- The parent skeleton index of a skeleton vertex (none at the root). -/
def SkeletonGraph.parent (s : SkeletonGraph) (i : Nat) : Option Nat :=
  (s.verts.getD i (0, none)).2

/-- The originating mesh vertex of a skeleton vertex. -/
def SkeletonGraph.meshVertex (s : SkeletonGraph) (i : Nat) : Nat :=
  (s.verts.getD i (0, none)).1

/-- Modelled from the spec (section 4.3): the skeleton index claimed for a
mesh index, or none if the mesh vertex has no skeleton correspondent. -/
def SkeletonGraph.meshToSkeleton (s : SkeletonGraph) (v : Nat) : Option Nat :=
  s.claim.getD v none

/-- Modelled from the spec (section 4.3): the set of mesh indices whose
claim points to the given skeleton index. -/
def SkeletonGraph.skeletonToMeshRegion (s : SkeletonGraph) (k : Nat) : List Nat :=
  (List.range s.claim.length).filter (fun v => decide (s.claim.getD v none = some k))

/-- The k-step ancestor of a skeleton vertex along parent pointers, none if
the chain ends earlier. -/
def SkeletonGraph.ancestor (s : SkeletonGraph) : Nat → Nat → Option Nat
  | 0, i => some i
  | k + 1, i =>
    match s.parent i with
    | none => none
    | some j => s.ancestor k j

/-- Fuel-bounded sum of edge weights from a vertex up to the root. -/
def SkeletonGraph.distToRootAux (s : SkeletonGraph) : Nat → Nat → ℚ
  | 0, _ => 0
  | k + 1, i =>
    match s.parent i with
    | none => 0
    | some j => s.weights.getD i 0 + s.distToRootAux k j

/-- Cable distance from a skeleton vertex to the root along the tree. -/
def SkeletonGraph.distToRoot (s : SkeletonGraph) (i : Nat) : ℚ :=
  s.distToRootAux s.verts.length i

/-- The parent of a skeleton vertex with the vertex itself as fallback. -/
def SkeletonGraph.parentD (s : SkeletonGraph) (i : Nat) : Nat :=
  (s.parent i).getD i

/-- Fuel-bounded lowest-common-ancestor walk: repeatedly replace the
deeper vertex (the one with the larger index; parents always have smaller
indices) by its parent until the two meet. -/
def SkeletonGraph.lcaAux (s : SkeletonGraph) : Nat → Nat → Nat → Nat
  | 0, a, _ => a
  | k + 1, a, b =>
    if a = b then a
    else if b < a then s.lcaAux k (s.parentD a) b
    else s.lcaAux k a (s.parentD b)

/-- Lowest common ancestor of two skeleton vertices. -/
def SkeletonGraph.lca (s : SkeletonGraph) (a b : Nat) : Nat :=
  s.lcaAux (a + b + 1) a b

/-- Modelled from the spec (section 4.5): tree distance between two
skeleton vertices, computed via the lowest common ancestor. -/
def SkeletonGraph.distanceBetween (s : SkeletonGraph) (a b : Nat) : ℚ :=
  s.distToRoot a + s.distToRoot b - 2 * s.distToRoot (s.lca a b)

/-- The ancestor chain of a skeleton vertex (the vertex itself first, the
root last), bounded by fuel. -/
def SkeletonGraph.chainAux (s : SkeletonGraph) : Nat → Nat → List Nat
  | 0, i => [i]
  | k + 1, i =>
    i :: (match s.parent i with
          | none => []
          | some j => s.chainAux k j)

/-- The ancestor chain of a skeleton vertex; since parents always have
strictly smaller indices, fuel equal to the index suffices. -/
def SkeletonGraph.chain (s : SkeletonGraph) (i : Nat) : List Nat :=
  s.chainAux i i

/-- Number of children of a skeleton vertex. -/
def SkeletonGraph.childCount (s : SkeletonGraph) (k : Nat) : Nat :=
  ((List.range s.verts.length).filter (fun i => decide (s.parent i = some k))).length

/-- Skeleton branch points (vertices with at least two children), reported
as mesh indices (spec section 4.5 lifts results back to mesh-index
space). -/
def SkeletonGraph.branchPointsSkel (s : SkeletonGraph) : List Nat :=
  ((List.range s.verts.length).filter (fun k => decide (2 ≤ s.childCount k))).map s.meshVertex

/-- Total cable length of the skeleton vertices named by a list of skeleton
indices: the sum of their parent-edge weights, each vertex counted once. -/
def SkeletonGraph.pathLengthSkel (s : SkeletonGraph) (ks : List Nat) : ℚ :=
  (ks.dedup.map (fun k => s.weights.getD k 0)).sum

/-- Modelled from the spec: a MeshworkObject owns exactly one anchor
MeshGraph (immutable base), one current mask over its vertex domain, an
optional derived SkeletonGraph, and a registry of AnnotationTables (spec
section 3). -/
structure MeshworkObject where
  seg_id : Int
  anchorMesh : MeshGraph
  mask : List Bool
  skeleton : Option SkeletonGraph
  annotations : List AnnotationTable
  deriving DecidableEq

/-- Building a Meshwork object from an anchor mesh: the mask starts full,
no skeleton, no annotations. -/
def mkMeshwork (g : MeshGraph) (seg_id : Int) : MeshworkObject :=
  { seg_id := seg_id, anchorMesh := g, mask := fullMaskOf g,
    skeleton := none, annotations := [] }

/-- Modelled from the spec (section 4.5): apply_mask sets the current mask
to the given mask intersected with the prior mask; the base mesh, the
skeleton and the stored annotation tables are untouched, only the view
changes. -/
def MeshworkObject.apply_mask (nrn : MeshworkObject) (m : List Bool) : MeshworkObject :=
  { nrn with mask := nrn.mask.zipWith (fun a b => a && b) m }

/-- Modelled from the spec (section 4.5): reset_mask restores the mask to
the full anchor-mesh vertex domain. -/
def MeshworkObject.reset_mask (nrn : MeshworkObject) : MeshworkObject :=
  { nrn with mask := fullMaskOf nrn.anchorMesh }

/-- The current mesh view: the anchor mesh restricted to the current
mask. -/
def MeshworkObject.mesh (nrn : MeshworkObject) : MeshGraph :=
  nrn.anchorMesh.applyMask nrn.mask

/-- The derived mesh-index column for an anchored table: one
nearest-vertex index per row, none when the lookup fails (an empty mesh
yields all-unmapped rows, not an error; spec section 4.4). -/
def computeAnchors (g : MeshGraph) (rows : List AnnoRow) : List (Option Nat) :=
  rows.map (fun r => (g.nearestVertex r.point).toOption)

/-- Registering a table under its name, replacing any existing entry with
that name (spec section 4.4). -/
def registerAnno (l : List AnnotationTable) (t : AnnotationTable) : List AnnotationTable :=
  (l.filter (fun u => u.name ≠ t.name)) ++ [t]

/-- Modelled from the spec (section 4.4): add_annotations attaches a table
under a name; if anchored, the mesh index of each row is computed via
nearestVertex against the object's base anchor mesh, not the current
masked view, and stored as an added column. -/
def MeshworkObject.add_annotations (nrn : MeshworkObject) (name : String)
    (rows : List AnnoRow) (anchored : Bool) : MeshworkObject :=
  let t : AnnotationTable :=
    { name := name, rows := rows, anchored := anchored,
      meshIndex :=
        if anchored then computeAnchors nrn.anchorMesh rows
        else rows.map (fun _ => none) }
  { nrn with annotations := registerAnno nrn.annotations t }

/-- Annotation lookup by registered name. -/
def MeshworkObject.getAnno (nrn : MeshworkObject) (name : String) : Option AnnotationTable :=
  nrn.annotations.find? (fun t => t.name == name)

/-- Modelled from the spec (section 4.2 at the object level): building the
skeleton of a MeshworkObject from its anchor mesh. -/
def MeshworkObject.skeletonize_mesh (nrn : MeshworkObject) (elen : Pos → Pos → ℚ)
    (soma_pt : Pos) (soma_thresh : Int) : Except MeshErr MeshworkObject :=
  match nrn.anchorMesh.skeletonize elen soma_pt soma_thresh with
  | .error e => .error e
  | .ok s => .ok { nrn with skeleton := some s }

/-- The root of a skeletonized object, as a mesh index (the originating
mesh vertex of skeleton vertex 0). -/
def MeshworkObject.root (nrn : MeshworkObject) : Option Nat :=
  nrn.skeleton.map (fun s => s.meshVertex 0)

/-- Modelled from the spec (section 4.5): downstream_of lifts a mesh index
to its skeleton vertex and returns, as mesh indices, every mesh vertex
whose skeleton vertex lies at or below it in the tree. -/
def MeshworkObject.downstream_of (nrn : MeshworkObject) (m : Nat) : List Nat :=
  match nrn.skeleton with
  | none => []
  | some s =>
    match s.meshToSkeleton m with
    | none => []
    | some a =>
      (List.range s.claim.length).filter
        (fun v =>
          match s.meshToSkeleton v with
          | some k => decide (a ∈ s.chain k)
          | none => false)

/-- Modelled from the spec (section 4.5): path_length over a collection of
mesh indices converts them to skeleton vertices and sums the cable length
they cover, each skeleton edge counted once. -/
def MeshworkObject.path_length (nrn : MeshworkObject) (ms : List Nat) : ℚ :=
  match nrn.skeleton with
  | none => 0
  | some s => s.pathLengthSkel (ms.filterMap (fun v => s.meshToSkeleton v))

/-- path_length with no argument: the cable length of all mesh vertices. -/
def MeshworkObject.path_length_all (nrn : MeshworkObject) : ℚ :=
  nrn.path_length (List.range nrn.anchorMesh.vertices.length)

/-- Modelled from the spec (section 4.5): tree distance between two mesh
indices, none when either has no skeleton correspondent or no skeleton
exists. -/
def MeshworkObject.distance_between (nrn : MeshworkObject) (x y : Nat) : Option ℚ :=
  match nrn.skeleton with
  | none => none
  | some s =>
    match s.meshToSkeleton x, s.meshToSkeleton y with
    | some a, some b => some (s.distanceBetween a b)
    | _, _ => none

/-- Branch points of a skeletonized object as mesh indices, none when no
skeleton exists. -/
def MeshworkObject.branch_points (nrn : MeshworkObject) : Option (List Nat) :=
  nrn.skeleton.map (fun s => s.branchPointsSkel)

/-- Modelled from the spec (sections 4.5, 6): the persisted form of a
MeshworkObject: the anchor mesh (not any currently-applied mask or view),
all registered AnnotationTables full and unfiltered, and the metadata
identifier.  Mask state is not persisted. -/
structure SavedMeshwork where
  seg_id : Int
  mesh : MeshGraph
  tables : List AnnotationTable
  deriving DecidableEq

/-- Modelled from the spec (section 4.5): save_meshwork serializes the
anchor mesh, all registered annotation tables and the identifier. -/
def save_meshwork (nrn : MeshworkObject) : SavedMeshwork :=
  { seg_id := nrn.seg_id, mesh := nrn.anchorMesh, tables := nrn.annotations }

/-- Modelled from the spec (sections 4.5, 6): load_meshwork rebuilds a
MeshworkObject from its persisted form; the reloaded object always starts
unmasked (full mask), and only the persisted components (anchor mesh,
tables, identifier) are restored. -/
def load_meshwork (s : SavedMeshwork) : MeshworkObject :=
  { seg_id := s.seg_id, anchorMesh := s.mesh, mask := fullMaskOf s.mesh,
    skeleton := none, annotations := s.tables }

/-! ### Helper lemmas -/

lemma getD_replicate_self {α : Type} (n i : Nat) (b : α) :
    (List.replicate n b).getD i b = b := by
  rcases lt_or_le i n with h | h
  · rw [List.getD_eq_getElem _ _ (by simpa using h)]
    simp
  · rw [List.getD_eq_default _ _ (by simpa using h)]

lemma map_getD_range {α : Type} (l : List α) (d : α) :
    (List.range l.length).map (fun i => l.getD i d) = l := by
  apply List.ext_getElem
  · simp
  · intro i h1 h2
    simp only [List.getElem_map, List.getElem_range]
    rw [List.getD_eq_getElem _ _ h2]

lemma filterMap_eq_self_of_some {α : Type} (f : α → Option α) (l : List α)
    (h : ∀ a ∈ l, f a = some a) : l.filterMap f = l := by
  induction l with
  | nil => rfl
  | cons a l ih =>
    rw [List.filterMap_cons, h a (List.mem_cons_self a l),
      ih (fun b hb => h b (List.mem_cons_of_mem a hb))]

lemma zip_map_proj {α β : Type} (l : List (α × β)) :
    (l.map (fun x => x.1)).zip (l.map (fun x => x.2)) = l := by
  induction l with
  | nil => rfl
  | cons a l ih => simp [ih]

/-! ### C9: empty-mask masking and nearestVertex on an empty graph -/

/-- C9: for every mesh graph, applying the all-false mask returns an empty
graph (and applyMask is total, hence not an error), while nearestVertex on
an empty graph fails with EmptyGraphError. -/
theorem empty_mask_empty_graph_and_nearest_fails
    (g g' : MeshGraph) (p : Pos) (h : g'.vertices = []) :
    (g.applyMask (emptyMaskOf g)).vertices = [] ∧
    (g.applyMask (emptyMaskOf g)).edges = [] ∧
    g'.nearestVertex p = Except.error MeshErr.EmptyGraphError := by
  refine ⟨?_, ?_, ?_⟩
  · simp [MeshGraph.applyMask, maskKeep, emptyMaskOf, getD_replicate_self]
  · simp [MeshGraph.applyMask, emptyMaskOf, getD_replicate_self]
  · unfold MeshGraph.nearestVertex
    rw [h]

/-- C9 witness: the empty-graph and empty-mask behavior at a concrete
graph. -/
theorem empty_mask_empty_graph_and_nearest_fails_witness :
    (MeshGraph.mk [] [] []).vertices = [] ∧
    ((MeshGraph.mk [(0, 0, 0)] [] [0]).applyMask
        (emptyMaskOf (MeshGraph.mk [(0, 0, 0)] [] [0]))).vertices = [] ∧
    ((MeshGraph.mk [(0, 0, 0)] [] [0]).applyMask
        (emptyMaskOf (MeshGraph.mk [(0, 0, 0)] [] [0]))).edges = [] ∧
    (MeshGraph.mk [] [] []).nearestVertex (0, 0, 0) =
      Except.error MeshErr.EmptyGraphError :=
  ⟨rfl, empty_mask_empty_graph_and_nearest_fails
    (MeshGraph.mk [(0, 0, 0)] [] [0]) (MeshGraph.mk [] [] []) (0, 0, 0) rfl⟩

/-! ### C8: filter_query row characterization -/

/-- C8: filter_query returns a table view whose row/mesh-index pairs are
exactly the pairs of the original table whose mesh index is in the mask
when the table is anchored, and all pairs unconditionally when it is not;
the original table is a value and is not mutated (the embedding is pure,
and the result is a fresh table). -/
theorem filter_query_rows (t : AnnotationTable) (mask : List Bool)
    (rm : AnnoRow × Option Nat) :
    rm ∈ (t.filter_query mask).rowsWithIndex ↔
      rm ∈ t.rowsWithIndex ∧ (t.anchored = false ∨ inMask mask rm.2 = true) := by
  unfold AnnotationTable.filter_query
  cases h : t.anchored with
  | false => simp
  | true =>
    simp only [if_pos]
    unfold AnnotationTable.rowsWithIndex
    simp only [h]
    rw [zip_map_proj]
    rw [List.mem_filter]
    simp [AnnotationTable.rowsWithIndex]

/-! ### C5: meshToSkeleton is consistent with skeletonToMeshRegion -/

/-- C5: whenever meshToSkeleton is defined on a mesh index, that mesh index
is a member of the region returned by skeletonToMeshRegion at its mapped
skeleton index. -/
theorem mesh_index_mem_own_region (s : SkeletonGraph) (v k : Nat)
    (h : s.meshToSkeleton v = some k) :
    v ∈ s.skeletonToMeshRegion k := by
  unfold SkeletonGraph.meshToSkeleton at h
  have hv : v < s.claim.length := by
    by_contra hv
    rw [List.getD_eq_default _ _ (Nat.le_of_not_lt hv)] at h
    exact Option.noConfusion h
  unfold SkeletonGraph.skeletonToMeshRegion
  rw [List.mem_filter]
  exact ⟨List.mem_range.mpr hv, decide_eq_true h⟩

/-- A concrete two-vertex skeleton used by witnesses. -/
def pairSkel : SkeletonGraph :=
  { verts := [(0, none), (1, some 0)], weights := [0, 1],
    claim := [some 0, some 1] }

/-- C5 witness: consistency at a concrete skeleton and mesh index. -/
theorem mesh_index_mem_own_region_witness :
    pairSkel.meshToSkeleton 1 = some 1 ∧ 1 ∈ pairSkel.skeletonToMeshRegion 1 :=
  ⟨by decide, mesh_index_mem_own_region pairSkel 1 1 (by decide)⟩

/-! ### Masking and persistence lemmas -/

lemma foldl_apply_mask_anchorMesh (ms : List (List Bool)) (nrn : MeshworkObject) :
    (ms.foldl MeshworkObject.apply_mask nrn).anchorMesh = nrn.anchorMesh := by
  induction ms generalizing nrn with
  | nil => rfl
  | cons m ms ih => rw [List.foldl_cons, ih]; rfl

lemma foldl_apply_mask_annotations (ms : List (List Bool)) (nrn : MeshworkObject) :
    (ms.foldl MeshworkObject.apply_mask nrn).annotations = nrn.annotations := by
  induction ms generalizing nrn with
  | nil => rfl
  | cons m ms ih => rw [List.foldl_cons, ih]; rfl

lemma foldl_apply_mask_skeleton (ms : List (List Bool)) (nrn : MeshworkObject) :
    (ms.foldl MeshworkObject.apply_mask nrn).skeleton = nrn.skeleton := by
  induction ms generalizing nrn with
  | nil => rfl
  | cons m ms ih => rw [List.foldl_cons, ih]; rfl

lemma foldl_apply_mask_seg_id (ms : List (List Bool)) (nrn : MeshworkObject) :
    (ms.foldl MeshworkObject.apply_mask nrn).seg_id = nrn.seg_id := by
  induction ms generalizing nrn with
  | nil => rfl
  | cons m ms ih => rw [List.foldl_cons, ih]; rfl

lemma getD_fullMask_true (n i : Nat) (h : i < n) :
    (List.replicate n true).getD i false = true := by
  rw [List.getD_eq_getElem _ _ (by simpa using h)]
  simp

lemma maskRank_full (n i : Nat) (h : i < n) :
    maskRank (List.replicate n true) i = i := by
  unfold maskRank
  rw [List.take_replicate, List.count_replicate]
  simp [Nat.min_eq_left (Nat.le_of_lt h)]

/-! ### C1: save/load round trip -/

/-- C1: saving and then loading, after any sequence of mask applications,
yields an object whose anchor mesh vertices and edges and whose full
annotation table list are pointwise equal to the original pre-mask object,
and whose mask is the full anchor-mesh vertex domain regardless of the
mask at save time. -/
theorem save_load_roundtrip (nrn : MeshworkObject) (ms : List (List Bool)) :
    (load_meshwork (save_meshwork (ms.foldl MeshworkObject.apply_mask nrn))).anchorMesh.vertices
        = nrn.anchorMesh.vertices ∧
    (load_meshwork (save_meshwork (ms.foldl MeshworkObject.apply_mask nrn))).anchorMesh.edges
        = nrn.anchorMesh.edges ∧
    (load_meshwork (save_meshwork (ms.foldl MeshworkObject.apply_mask nrn))).annotations
        = nrn.annotations ∧
    (load_meshwork (save_meshwork (ms.foldl MeshworkObject.apply_mask nrn))).mask
        = fullMaskOf nrn.anchorMesh := by
  refine ⟨?_, ?_, ?_, ?_⟩ <;>
    simp [load_meshwork, save_meshwork, foldl_apply_mask_anchorMesh,
      foldl_apply_mask_annotations]

/-! ### C2: full-mask identity and reset_mask -/

/-- C2: applying the all-true mask to a mesh graph with valid edges leaves
its vertex and edge lists unchanged, and reset_mask after any sequence of
apply_mask calls yields exactly the object reset from the original (same
anchor mesh, same stored annotation tables, hence the same visible rows),
with the mask restored to the full anchor-mesh vertex domain. -/
theorem full_mask_identity_and_reset (g : MeshGraph) (hWF : g.EdgesValid)
    (nrn : MeshworkObject) (ms : List (List Bool)) :
    (g.applyMask (fullMaskOf g)).vertices = g.vertices ∧
    (g.applyMask (fullMaskOf g)).edges = g.edges ∧
    (ms.foldl MeshworkObject.apply_mask nrn).reset_mask = nrn.reset_mask ∧
    ((ms.foldl MeshworkObject.apply_mask nrn).reset_mask).annotations = nrn.annotations ∧
    nrn.reset_mask.mask = fullMaskOf nrn.anchorMesh := by
  refine ⟨?_, ?_, ?_, ?_, rfl⟩
  · show (maskKeep (fullMaskOf g) g.vertices.length).map _ = g.vertices
    unfold maskKeep fullMaskOf
    rw [List.filter_eq_self.mpr (fun i hi =>
      getD_fullMask_true _ _ (List.mem_range.mp hi))]
    exact map_getD_range _ _
  · show g.edges.filterMap _ = g.edges
    apply filterMap_eq_self_of_some
    intro e he
    have h1 := (hWF e he).1
    have h2 := (hWF e he).2
    simp only [fullMaskOf, getD_fullMask_true _ _ h1, getD_fullMask_true _ _ h2,
      Bool.and_self, if_pos, maskRank_full _ _ h1, maskRank_full _ _ h2]
  · unfold MeshworkObject.reset_mask
    rw [foldl_apply_mask_anchorMesh, foldl_apply_mask_annotations,
      foldl_apply_mask_skeleton, foldl_apply_mask_seg_id]
  · unfold MeshworkObject.reset_mask
    simp [foldl_apply_mask_annotations]

/-- C2 witness: the full-mask identity and reset behavior at a concrete
graph, object, and mask sequence. -/
theorem full_mask_identity_and_reset_witness :
    (MeshGraph.mk [(0, 0, 0), (1, 0, 0)] [(0, 1)] [0, 1]).EdgesValid ∧
    ((MeshGraph.mk [(0, 0, 0), (1, 0, 0)] [(0, 1)] [0, 1]).applyMask
        (fullMaskOf (MeshGraph.mk [(0, 0, 0), (1, 0, 0)] [(0, 1)] [0, 1]))).vertices
      = [(0, 0, 0), (1, 0, 0)] ∧
    (([[true, false]].foldl MeshworkObject.apply_mask
        (mkMeshwork (MeshGraph.mk [(0, 0, 0), (1, 0, 0)] [(0, 1)] [0, 1]) 5)).reset_mask
      = (mkMeshwork (MeshGraph.mk [(0, 0, 0), (1, 0, 0)] [(0, 1)] [0, 1]) 5).reset_mask) := by
  have hWF : (MeshGraph.mk [(0, 0, 0), (1, 0, 0)] [(0, 1)] [0, 1]).EdgesValid := by
    intro e he
    simp [MeshGraph.EdgesValid] at he ⊢
    cases he
    simp_all
  have h := full_mask_identity_and_reset
    (MeshGraph.mk [(0, 0, 0), (1, 0, 0)] [(0, 1)] [0, 1]) hWF
    (mkMeshwork (MeshGraph.mk [(0, 0, 0), (1, 0, 0)] [(0, 1)] [0, 1]) 5)
    [[true, false]]
  exact ⟨hWF, h.1, h.2.2.1⟩

/-! ### C4: anchored annotations are computed against the base mesh -/

lemma find_registerAnno (l : List AnnotationTable) (t : AnnotationTable) :
    (registerAnno l t).find? (fun u => u.name == t.name) = some t := by
  unfold registerAnno
  induction l with
  | nil => simp [List.find?]
  | cons u l ih =>
    by_cases h : u.name = t.name
    · simp only [List.filter_cons, h]
      simp
    · simp only [List.filter_cons]
      simp [h, List.find?_cons]

/-- C4: attaching an anchored annotation table under any current mask
state stores, for every row, the mesh index computed by nearestVertex
against the base (unmasked) anchor mesh of the object, not against the
currently masked view; the table is registered under its name. -/
theorem attach_anchors_against_base_mesh (nrn : MeshworkObject)
    (ms : List (List Bool)) (name : String) (rows : List AnnoRow) :
    ((ms.foldl MeshworkObject.apply_mask nrn).add_annotations name rows true).getAnno name =
      some { name := name, rows := rows, anchored := true,
             meshIndex := rows.map (fun r => (nrn.anchorMesh.nearestVertex r.point).toOption) } := by
  unfold MeshworkObject.add_annotations MeshworkObject.getAnno
  simp only [if_pos, computeAnchors, foldl_apply_mask_anchorMesh,
    foldl_apply_mask_annotations]
  exact find_registerAnno nrn.annotations
    { name := name, rows := rows, anchored := true,
      meshIndex := rows.map (fun r => (nrn.anchorMesh.nearestVertex r.point).toOption) }

/-! ### Skeleton tracing-loop invariants -/

lemma getD_set_self {α : Type} (l : List α) (i : Nat) (a d : α) (h : i < l.length) :
    (l.set i a).getD i d = a := by
  rw [List.getD_eq_getElem?_getD, List.getElem?_set_eq_of_lt a h]
  rfl

lemma getD_set_ne {α : Type} (l : List α) (i j : Nat) (a d : α) (h : j ≠ i) :
    (l.set i a).getD j d = l.getD j d := by
  rw [List.getD_eq_getElem?_getD, List.getElem?_set_ne (fun he => h he.symm),
    ← List.getD_eq_getElem?_getD]

lemma getD_append_last {α : Type} (l : List α) (a d : α) :
    (l ++ [a]).getD l.length d = a := by
  rw [List.getD_append_right _ _ _ _ (le_refl _)]
  simp

/-- The invariant of the tracing state: at least one skeleton vertex, the
first has no parent, every later vertex has a parent with a strictly
smaller index, and every claimed skeleton index is in range. -/
def StInv (st : SkelState) : Prop :=
  0 < st.verts.length ∧
  (st.verts.getD 0 (0, none)).2 = none ∧
  (∀ i, 0 < i → i < st.verts.length →
    ∃ j, (st.verts.getD i (0, none)).2 = some j ∧ j < i) ∧
  (∀ v k, st.claim.getD v none = some k → k < st.verts.length)

/-- The queue invariant: every queued entry points at an existing skeleton
vertex as its parent. -/
def QInv (st : SkelState) (q : List (Nat × Nat)) : Prop :=
  ∀ e ∈ q, e.2 < st.verts.length

lemma skelLoop_inv (g : MeshGraph) (elen : Pos → Pos → ℚ) :
    ∀ (fuel : Nat) (q : List (Nat × Nat)) (st : SkelState),
      StInv st → QInv st q →
      StInv (skelLoop g elen fuel st q) ∧
      (skelLoop g elen fuel st q).claim.length = st.claim.length ∧
      (∀ v k, st.claim.getD v none = some k →
        (skelLoop g elen fuel st q).claim.getD v none = some k) ∧
      (∀ (i : Nat) (d : Nat × Option Nat), i < st.verts.length →
        (skelLoop g elen fuel st q).verts.getD i d = st.verts.getD i d) := by
  intro fuel
  induction fuel with
  | zero =>
    intro q st h1 _
    exact ⟨h1, rfl, fun _ _ h => h, fun _ _ _ => rfl⟩
  | succ fuel ih =>
    intro q st h1 h2
    match q with
    | [] => exact ⟨h1, rfl, fun _ _ h => h, fun _ _ _ => rfl⟩
    | (v, p) :: rest =>
      by_cases hc : (st.claim.getD v none).isSome = true
      · have hred : skelLoop g elen (fuel + 1) st ((v, p) :: rest) =
            skelLoop g elen fuel st rest := by
          simp only [skelLoop]
          rw [if_pos hc]
        rw [hred]
        exact ih rest st h1 (fun e he => h2 e (List.mem_cons_of_mem _ he))
      · have hnone : st.claim.getD v none = none :=
          Option.not_isSome_iff_eq_none.mp hc
        have hred : skelLoop g elen (fuel + 1) st ((v, p) :: rest) =
            skelLoop g elen fuel
              { verts := st.verts ++ [(v, some p)],
                weights := st.weights ++
                  [elen (g.vertices.getD v (0, 0, 0))
                    (g.vertices.getD (st.verts.getD p (0, none)).1 (0, 0, 0))],
                claim := st.claim.set v (some st.verts.length) }
              (rest ++ (g.neighbors v).map (fun n => (n, st.verts.length))) := by
          simp only [skelLoop]
          rw [if_neg hc]
        obtain ⟨hlen, hroot, hpar, hclaim⟩ := h1
        have hp_lt : p < st.verts.length := h2 (v, p) (List.mem_cons_self _ _)
        have hSt2 : StInv
            { verts := st.verts ++ [(v, some p)],
              weights := st.weights ++
                [elen (g.vertices.getD v (0, 0, 0))
                  (g.vertices.getD (st.verts.getD p (0, none)).1 (0, 0, 0))],
              claim := st.claim.set v (some st.verts.length) } := by
          refine ⟨?_, ?_, ?_, ?_⟩
          · simp
          · rw [List.getD_append _ _ _ _ hlen]
            exact hroot
          · intro i hi0 hi
            simp only [List.length_append, List.length_cons, List.length_nil] at hi
            rcases Nat.lt_or_ge i st.verts.length with hlt | hge
            · rw [List.getD_append _ _ _ _ hlt]
              exact hpar i hi0 hlt
            · have hieq : i = st.verts.length := by omega
              subst hieq
              rw [getD_append_last]
              exact ⟨p, rfl, hp_lt⟩
          · intro v' k hk
            rcases Decidable.em (v' = v) with hv | hv
            · subst hv
              rcases Nat.lt_or_ge v' st.claim.length with hvl | hvl
              · rw [getD_set_self _ _ _ _ hvl] at hk
                have : k = st.verts.length := by
                  injection hk with h
                  exact h.symm
                subst this
                simp
              · rw [List.getD_eq_default] at hk
                · exact Option.noConfusion hk
                · simpa using hvl
            · rw [getD_set_ne _ _ _ _ _ hv] at hk
              have := hclaim v' k hk
              simp only [List.length_append, List.length_cons, List.length_nil]
              omega
        have hQ2 : QInv
            { verts := st.verts ++ [(v, some p)],
              weights := st.weights ++
                [elen (g.vertices.getD v (0, 0, 0))
                  (g.vertices.getD (st.verts.getD p (0, none)).1 (0, 0, 0))],
              claim := st.claim.set v (some st.verts.length) }
            (rest ++ (g.neighbors v).map (fun n => (n, st.verts.length))) := by
          intro e he
          simp only [List.length_append, List.length_cons, List.length_nil]
          rcases List.mem_append.mp he with he | he
          · have := h2 e (List.mem_cons_of_mem _ he)
            omega
          · obtain ⟨n, _, rfl⟩ := List.mem_map.mp he
            simp
        obtain ⟨A, B, C, D⟩ := ih _ _ hSt2 hQ2
        rw [hred]
        refine ⟨A, ?_, ?_, ?_⟩
        · rw [B]
          simp
        · intro v' k hk
          have hv : v' ≠ v := by
            intro he
            subst he
            rw [hnone] at hk
            exact Option.noConfusion hk
          exact C v' k (by rw [getD_set_ne _ _ _ _ _ hv]; exact hk)
        · intro i d hi
          rw [D i d (by simp only [List.length_append, List.length_cons,
              List.length_nil]; omega),
            List.getD_append _ _ _ _ hi]

lemma foldl_nearest_lt (vs : List Pos) (p : Pos) (l : List Nat) (b n : Nat)
    (hb : b < n) (hl : ∀ i ∈ l, i < n) :
    l.foldl (fun best i =>
      if sqDist (vs.getD i (0, 0, 0)) p < sqDist (vs.getD best (0, 0, 0)) p
      then i else best) b < n := by
  induction l generalizing b with
  | nil => exact hb
  | cons a l ih =>
    rw [List.foldl_cons]
    apply ih
    · by_cases h : sqDist (vs.getD a (0, 0, 0)) p < sqDist (vs.getD b (0, 0, 0)) p
      · rw [if_pos h]
        exact hl a (List.mem_cons_self _ _)
      · rw [if_neg h]
        exact hb
    · exact fun i hi => hl i (List.mem_cons_of_mem _ hi)

lemma nearestVertex_lt (g : MeshGraph) (p : Pos) (r : Nat)
    (h : g.nearestVertex p = Except.ok r) : r < g.vertices.length := by
  unfold MeshGraph.nearestVertex at h
  split at h
  · exact Except.noConfusion h
  · rename_i x xs hv
    injection h with h
    rw [← h]
    apply foldl_nearest_lt
    · rw [hv]
      simp
    · intro i hi
      exact List.mem_range.mp hi

/-- The tree well-formedness invariant of a skeleton graph: a nonempty
vertex list, no parent at index 0, a strictly smaller parent index
everywhere else, and all claimed skeleton indices in range. -/
structure SkelWF (s : SkeletonGraph) : Prop where
  pos_len : 0 < s.nverts
  root_parent : s.parent 0 = none
  parent_lt : ∀ i, 0 < i → i < s.nverts → ∃ j, s.parent i = some j ∧ j < i
  claim_lt : ∀ v k, s.meshToSkeleton v = some k → k < s.nverts

lemma claim0_getD (n : Nat) (soma : List Nat) (v k : Nat)
    (h : ((List.range n).map (fun v => if v ∈ soma then some 0 else none)).getD v none
      = some k) : k = 0 := by
  rcases Nat.lt_or_ge v n with hv | hv
  · rw [List.getD_eq_getElem _ _ (by simpa using hv)] at h
    simp only [List.getElem_map, List.getElem_range] at h
    by_cases hm : v ∈ soma
    · rw [if_pos hm] at h
      injection h with h
      exact h.symm
    · rw [if_neg hm] at h
      exact Option.noConfusion h
  · rw [List.getD_eq_default _ _ (by simpa using hv)] at h
    exact Option.noConfusion h

/-- Every skeleton produced by skeletonize satisfies the tree invariant;
its claim assignment covers exactly the mesh vertex domain, is total on
it, and claims the root mesh vertex for skeleton vertex 0. -/
lemma skeletonize_wf (g : MeshGraph) (elen : Pos → Pos → ℚ) (p : Pos)
    (t : Int) (s : SkeletonGraph) (h : g.skeletonize elen p t = Except.ok s) :
    SkelWF s ∧ s.claim.length = g.vertices.length ∧
    (∀ v, v < g.vertices.length → (s.meshToSkeleton v).isSome = true) ∧
    s.meshToSkeleton (s.meshVertex 0) = some 0 := by
  unfold MeshGraph.skeletonize at h
  split at h
  · exact Except.noConfusion h
  · rename_i r hr
    simp only [skelInit] at h
    set soma := somaSetOf g p t r with hsoma
    set claim0 : List (Option Nat) :=
      (List.range g.vertices.length).map (fun v => if v ∈ soma then some 0 else none)
      with hclaim0
    set st0 : SkelState := { verts := [(r, none)], weights := [0], claim := claim0 }
      with hst0
    set q0 : List (Nat × Nat) :=
      soma.flatMap (fun v => (g.neighbors v).map (fun n => (n, 0))) with hq0
    have hSt0 : StInv st0 := by
      refine ⟨by simp [hst0], rfl, ?_, ?_⟩
      · intro i hi0 hi
        simp [hst0] at hi
        omega
      · intro v k hk
        have := claim0_getD g.vertices.length soma v k hk
        subst this
        simp [hst0]
    have hQ0 : QInv st0 q0 := by
      intro e he
      rw [hq0] at he
      obtain ⟨v, _, he⟩ := List.mem_flatMap.mp he
      obtain ⟨n, _, rfl⟩ := List.mem_map.mp he
      simp [hst0]
    obtain ⟨⟨hlen, hroot, hpar, hclaim⟩, hclen, hmono, hpres⟩ :=
      skelLoop_inv g elen (q0.length + 2 * g.edges.length + 1) q0 st0 hSt0 hQ0
    set st := skelLoop g elen (q0.length + 2 * g.edges.length + 1) st0 q0 with hst
    by_cases hall : st.claim.all (fun c => c.isSome) = true
    · rw [if_pos hall] at h
      injection h with h
      subst h
      have hr_lt : r < g.vertices.length := nearestVertex_lt g p r hr
      have hr_soma : r ∈ soma := by
        rw [hsoma]
        unfold somaSetOf
        rw [List.mem_filter]
        exact ⟨List.mem_range.mpr hr_lt, by simp⟩
      have hclaim0_r : claim0.getD r none = some 0 := by
        rw [hclaim0, List.getD_eq_getElem _ _ (by simpa using hr_lt)]
        simp only [List.getElem_map, List.getElem_range]
        rw [if_pos hr_soma]
      have hclaim_r : st.claim.getD r none = some 0 := hmono r 0 hclaim0_r
      have hvert0 : st.verts.getD 0 (0, none) = (r, none) := by
        have := hpres 0 (0, none) (by simp [hst0])
        rw [this]
        rfl
      refine ⟨⟨hlen, hroot, hpar, hclaim⟩, ?_, ?_, ?_⟩
      · rw [hclen]
        simp [hst0, hclaim0]
      · intro v hv
        have hvlen : v < st.claim.length := by
          rw [hclen]
          simpa [hst0, hclaim0] using hv
        show (st.claim.getD v none).isSome = true
        rw [List.getD_eq_getElem _ _ hvlen]
        exact List.all_eq_true.mp hall _ (List.getElem_mem hvlen)
      · show st.claim.getD ((st.verts.getD 0 (0, none)).1) none = some 0
        rw [hvert0]
        exact hclaim_r
    · rw [if_neg hall] at h
      exact Except.noConfusion h

/-! ### C3: skeletons are single rooted trees -/

lemma parent_of_ge (s : SkeletonGraph) (i : Nat) (hi : s.nverts ≤ i) :
    s.parent i = none := by
  unfold SkeletonGraph.parent
  rw [List.getD_eq_default _ _ hi]

lemma parent_lt_of_some {s : SkeletonGraph} (wf : SkelWF s) {i j : Nat}
    (h : s.parent i = some j) : j < i := by
  rcases Nat.lt_or_ge i s.nverts with hi | hi
  · rcases Nat.eq_zero_or_pos i with h0 | h0
    · subst h0
      rw [wf.root_parent] at h
      exact Option.noConfusion h
    · obtain ⟨j', hj', hlt⟩ := wf.parent_lt i h0 hi
      rw [hj'] at h
      injection h with h
      omega
  · rw [parent_of_ge s i hi] at h
    exact Option.noConfusion h

lemma ancestor_lt {s : SkeletonGraph} (wf : SkelWF s) :
    ∀ (k i j : Nat), s.ancestor (k + 1) i = some j → j < i := by
  intro k
  induction k with
  | zero =>
    intro i j h
    unfold SkeletonGraph.ancestor at h
    rcases hp : s.parent i with _ | j'
    · rw [hp] at h
      exact Option.noConfusion h
    · rw [hp] at h
      unfold SkeletonGraph.ancestor at h
      injection h with h
      subst h
      exact parent_lt_of_some wf hp
  | succ k ih =>
    intro i j h
    rw [show k + 1 + 1 = (k + 1) + 1 from rfl] at h
    unfold SkeletonGraph.ancestor at h
    rcases hp : s.parent i with _ | j'
    · rw [hp] at h
      exact Option.noConfusion h
    · rw [hp] at h
      have h1 := ih j' j h
      have h2 := parent_lt_of_some wf hp
      omega

lemma reach_root {s : SkeletonGraph} (wf : SkelWF s) :
    ∀ i, i < s.nverts → ∃ m, s.ancestor m i = some 0 := by
  intro i
  induction i using Nat.strong_induction_on with
  | _ i ih =>
    intro hi
    rcases Nat.eq_zero_or_pos i with h0 | h0
    · subst h0
      exact ⟨0, rfl⟩
    · obtain ⟨j, hj, hlt⟩ := wf.parent_lt i h0 hi
      obtain ⟨m, hm⟩ := ih j hlt (lt_trans hlt hi)
      refine ⟨m + 1, ?_⟩
      unfold SkeletonGraph.ancestor
      rw [hj]
      exact hm

/-- C3: every skeleton produced by skeletonization is a single rooted
tree: the vertex list is nonempty, a vertex has no parent exactly when it
is the root (index 0), no vertex is its own ancestor along parent
pointers, and every vertex reaches the root by following parents. -/
theorem skeleton_is_rooted_tree (g : MeshGraph) (elen : Pos → Pos → ℚ)
    (p : Pos) (t : Int) (s : SkeletonGraph) (i k : Nat)
    (h : g.skeletonize elen p t = Except.ok s) (hi : i < s.nverts) :
    0 < s.nverts ∧
    (s.parent i = none ↔ i = 0) ∧
    s.ancestor (k + 1) i ≠ some i ∧
    (∃ m, s.ancestor m i = some 0) := by
  obtain ⟨wf, _, _, _⟩ := skeletonize_wf g elen p t s h
  refine ⟨wf.pos_len, ⟨?_, ?_⟩, ?_, reach_root wf i hi⟩
  · intro hnone
    by_contra h0
    obtain ⟨j, hj, _⟩ := wf.parent_lt i (Nat.pos_of_ne_zero h0) hi
    rw [hnone] at hj
    exact Option.noConfusion hj
  · intro h0
    subst h0
    exact wf.root_parent
  · intro hcyc
    exact absurd (ancestor_lt wf k i i hcyc) (lt_irrefl i)

/-- A concrete Y-shaped mesh used by witnesses: a path 0-1-2 with two
extra branches 2-3 and 2-4. -/
def demoMesh : MeshGraph :=
  { vertices := [(0, 0, 0), (1, 0, 0), (2, 0, 0), (3, 1, 0), (3, -1, 0)],
    edges := [(0, 1), (1, 2), (2, 3), (2, 4)],
    unmaskedIdx := [0, 1, 2, 3, 4] }

/-- A concrete unit edge-length function used by witnesses. -/
def demoLen : Pos → Pos → ℚ := fun _ _ => 1

/-- The skeleton skeletonize produces on the demo mesh. -/
def demoSkel : SkeletonGraph :=
  { verts := [(0, none), (1, some 0), (2, some 1), (3, some 2), (4, some 2)],
    weights := [0, 1, 1, 1, 1],
    claim := [some 0, some 1, some 2, some 3, some 4] }

/-- C3 witness: the rooted-tree properties at a concrete skeletonization
result and vertex. -/
theorem skeleton_is_rooted_tree_witness :
    demoMesh.skeletonize demoLen (0, 0, 0) 0 = Except.ok demoSkel ∧
    3 < demoSkel.nverts ∧
    (0 < demoSkel.nverts ∧
     (demoSkel.parent 3 = none ↔ 3 = 0) ∧
     demoSkel.ancestor (2 + 1) 3 ≠ some 3 ∧
     (∃ m, demoSkel.ancestor m 3 = some 0)) :=
  ⟨by rfl, by decide,
    skeleton_is_rooted_tree demoMesh demoLen (0, 0, 0) 0 demoSkel 3 2
      (by rfl) (by decide)⟩

/-! ### C6: distance_between is zero on the diagonal and symmetric -/

lemma parentD_lt {s : SkeletonGraph} (wf : SkelWF s) {a : Nat}
    (h0 : 0 < a) (ha : a < s.nverts) : s.parentD a < a := by
  obtain ⟨j, hj, hlt⟩ := wf.parent_lt a h0 ha
  unfold SkeletonGraph.parentD
  rw [hj]
  exact hlt

lemma lcaAux_fuel {s : SkeletonGraph} (wf : SkelWF s) :
    ∀ (m a b fuel : Nat), a + b = m → a < s.nverts → b < s.nverts →
      a + b + 1 ≤ fuel → s.lcaAux fuel a b = s.lca a b := by
  intro m
  induction m using Nat.strong_induction_on with
  | _ m ih =>
    intro a b fuel hm ha hb hfuel
    match fuel, hfuel with
    | f + 1, hfuel =>
      show s.lcaAux (f + 1) a b = s.lcaAux (a + b + 1) a b
      unfold SkeletonGraph.lcaAux
      by_cases hab : a = b
      · rw [if_pos hab, if_pos hab]
      · rw [if_neg hab, if_neg hab]
        by_cases hba : b < a
        · rw [if_pos hba, if_pos hba]
          have h0 : 0 < a := by omega
          have ha2 : s.parentD a < a := parentD_lt wf h0 ha
          have ha3 : s.parentD a < s.nverts := by omega
          rw [ih (s.parentD a + b) (by omega) (s.parentD a) b f rfl ha3 hb (by omega),
            ih (s.parentD a + b) (by omega) (s.parentD a) b (a + b) rfl ha3 hb (by omega)]
        · rw [if_neg hba, if_neg hba]
          have h0 : 0 < b := by omega
          have hb2 : s.parentD b < b := parentD_lt wf h0 hb
          have hb3 : s.parentD b < s.nverts := by omega
          rw [ih (a + s.parentD b) (by omega) a (s.parentD b) f rfl ha hb3 (by omega),
            ih (a + s.parentD b) (by omega) a (s.parentD b) (a + b) rfl ha hb3 (by omega)]

lemma lca_symm {s : SkeletonGraph} (wf : SkelWF s) :
    ∀ (m a b : Nat), a + b = m → a < s.nverts → b < s.nverts →
      s.lca a b = s.lca b a := by
  intro m
  induction m using Nat.strong_induction_on with
  | _ m ih =>
    intro a b hm ha hb
    unfold SkeletonGraph.lca
    rw [show a + b + 1 = (a + b) + 1 from rfl, show b + a + 1 = (b + a) + 1 from rfl]
    unfold SkeletonGraph.lcaAux
    by_cases hab : a = b
    · rw [if_pos hab, if_pos hab.symm]
      rw [hab]
    · rw [if_neg hab, if_neg (Ne.symm hab)]
      by_cases hba : b < a
      · rw [if_pos hba, if_neg (by omega : ¬a < b)]
        have h0 : 0 < a := by omega
        have ha2 : s.parentD a < a := parentD_lt wf h0 ha
        have ha3 : s.parentD a < s.nverts := by omega
        rw [lcaAux_fuel wf (s.parentD a + b) (s.parentD a) b (a + b) rfl ha3 hb (by omega),
          lcaAux_fuel wf (b + s.parentD a) b (s.parentD a) (b + a) rfl hb ha3 (by omega)]
        exact ih (s.parentD a + b) (by omega) (s.parentD a) b rfl ha3 hb
      · rw [if_neg hba, if_pos (by omega : a < b)]
        have h0 : 0 < b := by omega
        have hb2 : s.parentD b < b := parentD_lt wf h0 hb
        have hb3 : s.parentD b < s.nverts := by omega
        rw [lcaAux_fuel wf (a + s.parentD b) a (s.parentD b) (a + b) rfl ha hb3 (by omega),
          lcaAux_fuel wf (s.parentD b + a) (s.parentD b) a (b + a) rfl hb3 ha (by omega)]
        exact ih (a + s.parentD b) (by omega) a (s.parentD b) rfl ha hb3

lemma lca_self (s : SkeletonGraph) (a : Nat) : s.lca a a = a := by
  unfold SkeletonGraph.lca
  rw [show a + a + 1 = (a + a) + 1 from rfl]
  unfold SkeletonGraph.lcaAux
  rw [if_pos rfl]

lemma distanceBetween_self (s : SkeletonGraph) (a : Nat) :
    s.distanceBetween a a = 0 := by
  unfold SkeletonGraph.distanceBetween
  rw [lca_self]
  ring

lemma distanceBetween_symm {s : SkeletonGraph} (wf : SkelWF s) {a b : Nat}
    (ha : a < s.nverts) (hb : b < s.nverts) :
    s.distanceBetween a b = s.distanceBetween b a := by
  unfold SkeletonGraph.distanceBetween
  rw [lca_symm wf (a + b) a b rfl ha hb]
  ring

/-- C6: on a skeletonized object, distance_between of a mesh index with
itself is zero for every mesh index in the skeletonized domain, and
distance_between is symmetric in its two mesh-index arguments. -/
theorem distance_between_diag_zero_and_symm (nrn : MeshworkObject)
    (elen : Pos → Pos → ℚ) (p : Pos) (t : Int) (nrn2 : MeshworkObject)
    (x y : Nat) (h : nrn.skeletonize_mesh elen p t = Except.ok nrn2)
    (hx : x < nrn.anchorMesh.vertices.length) :
    nrn2.distance_between x x = some 0 ∧
    nrn2.distance_between x y = nrn2.distance_between y x := by
  unfold MeshworkObject.skeletonize_mesh at h
  split at h
  · exact Except.noConfusion h
  · rename_i s hs
    injection h with h
    subst h
    obtain ⟨wf, hclen, htotal, _⟩ := skeletonize_wf _ _ _ _ _ hs
    obtain ⟨a, hxa⟩ := Option.isSome_iff_exists.mp (htotal x hx)
    have hav : a < s.nverts := wf.claim_lt x a hxa
    constructor
    · show (match s.meshToSkeleton x, s.meshToSkeleton x with
        | some a, some b => some (s.distanceBetween a b)
        | _, _ => none) = some 0
      rw [hxa]
      simp [distanceBetween_self]
    · show (match s.meshToSkeleton x, s.meshToSkeleton y with
        | some a, some b => some (s.distanceBetween a b)
        | _, _ => none) =
        (match s.meshToSkeleton y, s.meshToSkeleton x with
        | some a, some b => some (s.distanceBetween a b)
        | _, _ => none)
      rcases hy : s.meshToSkeleton y with _ | b
      · rw [hxa]
      · rw [hxa]
        have hbv : b < s.nverts := wf.claim_lt y b hy
        simp [distanceBetween_symm wf hav hbv]

/-- The demo Meshwork object before skeletonization. -/
def demoNrn0 : MeshworkObject := mkMeshwork demoMesh 7

/-- The demo Meshwork object after skeletonization. -/
def demoNrnSk : MeshworkObject :=
  { demoNrn0 with skeleton := some demoSkel }

/-- C6 witness: diagonal-zero and symmetry at concrete mesh indices of the
demo object. -/
theorem distance_between_diag_zero_and_symm_witness :
    demoNrn0.skeletonize_mesh demoLen (0, 0, 0) 0 = Except.ok demoNrnSk ∧
    2 < demoNrn0.anchorMesh.vertices.length ∧
    (demoNrnSk.distance_between 2 2 = some 0 ∧
     demoNrnSk.distance_between 2 4 = demoNrnSk.distance_between 4 2) :=
  ⟨by rfl, by decide,
    distance_between_diag_zero_and_symm demoNrn0 demoLen (0, 0, 0) 0 demoNrnSk
      2 4 (by rfl) (by decide)⟩

/-! ### C7: the downstream of the root covers the whole cable length -/

lemma self_mem_chainAux (s : SkeletonGraph) (fuel i : Nat) :
    i ∈ s.chainAux fuel i := by
  cases fuel with
  | zero => simp [SkeletonGraph.chainAux]
  | succ f => simp [SkeletonGraph.chainAux]

lemma mem_chainAux {s : SkeletonGraph} (wf : SkelWF s) :
    ∀ k, k < s.nverts → ∀ fuel, k ≤ fuel → ∀ m j,
      s.ancestor m k = some j → j ∈ s.chainAux fuel k := by
  intro k
  induction k using Nat.strong_induction_on with
  | _ k ih =>
    intro hk fuel hfuel m j hm
    cases m with
    | zero =>
      injection hm with hm
      subst hm
      exact self_mem_chainAux s fuel k
    | succ m =>
      unfold SkeletonGraph.ancestor at hm
      rcases hp : s.parent k with _ | j'
      · rw [hp] at hm
        exact Option.noConfusion hm
      · rw [hp] at hm
        have hj' : j' < k := parent_lt_of_some wf hp
        cases fuel with
        | zero => exact absurd hj' (by omega)
        | succ f =>
          unfold SkeletonGraph.chainAux
          rw [hp]
          exact List.mem_cons_of_mem _
            (ih j' hj' (by omega) f (by omega) m j hm)

/-- C7: on a skeletonized object, path_length of the downstream of the
root equals path_length of all mesh vertices: the downstream set of the
root is the entire tree. -/
theorem path_length_downstream_root (nrn : MeshworkObject)
    (elen : Pos → Pos → ℚ) (p : Pos) (t : Int) (nrn2 : MeshworkObject)
    (r : Nat) (h : nrn.skeletonize_mesh elen p t = Except.ok nrn2)
    (hr : nrn2.root = some r) :
    nrn2.path_length (nrn2.downstream_of r) = nrn2.path_length_all := by
  unfold MeshworkObject.skeletonize_mesh at h
  split at h
  · exact Except.noConfusion h
  · rename_i s hs
    injection h with h
    subst h
    obtain ⟨wf, hclen, htotal, hroot⟩ := skeletonize_wf _ _ _ _ _ hs
    have hr2 : r = s.meshVertex 0 := by
      unfold MeshworkObject.root at hr
      simp at hr
      exact hr.symm
    subst hr2
    have hdown : MeshworkObject.downstream_of
        { nrn with skeleton := some s } (s.meshVertex 0) =
        List.range s.claim.length := by
      show (match s.meshToSkeleton (s.meshVertex 0) with
        | none => []
        | some a =>
          (List.range s.claim.length).filter
            (fun v =>
              match s.meshToSkeleton v with
              | some k => decide (a ∈ s.chain k)
              | none => false)) = List.range s.claim.length
      rw [hroot]
      apply List.filter_eq_self.mpr
      intro v hv
      have hvlen : v < nrn.anchorMesh.vertices.length := by
        rw [← hclen]
        exact List.mem_range.mp hv
      obtain ⟨k, hk⟩ := Option.isSome_iff_exists.mp (htotal v hvlen)
      have hkv : k < s.nverts := wf.claim_lt v k hk
      obtain ⟨m, hm⟩ := reach_root wf k hkv
      have : (0 : Nat) ∈ s.chain k :=
        mem_chainAux wf k hkv k (le_refl k) m 0 hm
      rw [hk]
      exact decide_eq_true this
    rw [hdown]
    show MeshworkObject.path_length _ _ =
      MeshworkObject.path_length _ (List.range nrn.anchorMesh.vertices.length)
    rw [hclen]

/-- C7 witness: the downstream-of-root cable length at the concrete demo
object. -/
theorem path_length_downstream_root_witness :
    demoNrn0.skeletonize_mesh demoLen (0, 0, 0) 0 = Except.ok demoNrnSk ∧
    demoNrnSk.root = some 0 ∧
    demoNrnSk.path_length (demoNrnSk.downstream_of 0) = demoNrnSk.path_length_all :=
  ⟨by rfl, by rfl,
    path_length_downstream_root demoNrn0 demoLen (0, 0, 0) 0 demoNrnSk 0
      (by rfl) (by rfl)⟩

/-! ### C10: branch points across save/load -/

/-- C10 counterexample: the persistence contract covers only the anchor
mesh, the annotation tables and the metadata, so the skeleton is not
restored by load; on a concrete skeletonized object, the branch points of
the reloaded object (none: no skeleton) differ from the branch points of
the original. -/
theorem branch_points_not_preserved_by_reload :
    (load_meshwork (save_meshwork demoNrnSk)).branch_points ≠
      demoNrnSk.branch_points := by
  decide

/-- The demo object as reloaded from persistence and then re-skeletonized
with the original parameters. -/
def demoReloadedSk : MeshworkObject :=
  { seg_id := 7, anchorMesh := demoMesh, mask := fullMaskOf demoMesh,
    skeleton := some demoSkel, annotations := [] }

/-- C10 amended: the reloaded object carries no skeleton, so equality of
branch points holds only after re-skeletonizing the reloaded object with
the same parameters; then its branch points are elementwise equal to the
original's, because the anchor mesh is preserved by the round trip and
skeletonization is a deterministic function of the anchor mesh and its
parameters. -/
theorem branch_points_equal_after_reskeletonize (nrn : MeshworkObject)
    (elen : Pos → Pos → ℚ) (p : Pos) (t : Int) (nrn1 nrn2 : MeshworkObject)
    (h1 : nrn.skeletonize_mesh elen p t = Except.ok nrn1)
    (h2 : (load_meshwork (save_meshwork nrn)).skeletonize_mesh elen p t
      = Except.ok nrn2) :
    nrn2.branch_points = nrn1.branch_points := by
  unfold MeshworkObject.skeletonize_mesh at h1 h2
  have hanchor : (load_meshwork (save_meshwork nrn)).anchorMesh = nrn.anchorMesh := rfl
  rw [hanchor] at h2
  split at h1
  · exact Except.noConfusion h1
  · rename_i s1 hs1
    split at h2
    · exact Except.noConfusion h2
    · rename_i s2 hs2
      have hs : s1 = s2 := by
        have := hs1.symm.trans hs2
        injection this
      injection h1 with h1
      injection h2 with h2
      subst h1
      subst h2
      subst hs
      rfl

/-- C10 amended witness: branch-point equality after reload and
re-skeletonization at the concrete demo object. -/
theorem branch_points_equal_after_reskeletonize_witness :
    demoNrnSk.skeletonize_mesh demoLen (0, 0, 0) 0 = Except.ok demoNrnSk ∧
    (load_meshwork (save_meshwork demoNrnSk)).skeletonize_mesh demoLen (0, 0, 0) 0
      = Except.ok demoReloadedSk ∧
    demoReloadedSk.branch_points = demoNrnSk.branch_points :=
  ⟨by rfl, by rfl,
    branch_points_equal_after_reskeletonize demoNrnSk demoLen (0, 0, 0) 0
      demoNrnSk demoReloadedSk (by rfl) (by rfl)⟩

end Meshwork
